import Mathlib

/-!
Shallow embedding of the RA-of-the-Month leaderboard core (src/app.py).

Strings are modelled as lists of Unicode code points (`Word := List Nat`);
the Python string operations used by the program (lower, replace, strip,
substring test, concatenation) are mirrored on that representation.
Case mapping is modelled for the ASCII range, which covers every literal
the program compares against.

DataFrames are modelled as `Table`: a list of column labels plus rows of
optional cell values (`none` models a NULL/NaN cell).  Percentages are
computed with exact integer arithmetic: `round(x)` in pandas/NumPy is
round-half-to-even, mirrored by `roundHalfEvenInt` on the exact rational
`num/den`.  A pandas pipeline `(... ).round(0).astype(int)` applied to a
division by zero raises (NaN/inf cannot be cast to int); this is modelled
by `Option ℤ` with `none` for the raising case.
-/

abbrev Word := List Nat

/-- ASCII case folding, mirroring `str.lower()` on the characters the
program manipulates (column labels and RA names). -/
def lowerN (c : Nat) : Nat := if 65 ≤ c ∧ c ≤ 90 then c + 32 else c

/-- `s.lower()` on a whole word. -/
def lowerW (w : Word) : Word := w.map lowerN

/-- `w.replace(chr c, r)` for a single-character pattern `c`: every
occurrence of `c` is replaced by `r` (app.py `normalize_columns`,
lines 203-208). -/
def replaceCh (c : Nat) (r : Word) : Word → Word
  | [] => []
  | d :: rest => (if d = c then r else [d]) ++ replaceCh c r rest

/-- `w.replace('%%', 'pct')` (app.py line 202): leftmost, non-overlapping
replacement of the two-character pattern `%%` (code 37) by `pct`
(codes 112, 99, 116). -/
def replacePP : Word → Word
  | [] => []
  | [c] => [c]
  | c :: d :: rest =>
    if c = 37 ∧ d = 37 then 112 :: 99 :: 116 :: replacePP rest
    else c :: replacePP (d :: rest)

/-- `'__' in w` (the loop guard at app.py line 209); 95 is `_`. -/
def containsUU : Word → Bool
  | c :: d :: rest => (c == 95 && d == 95) || containsUU (d :: rest)
  | _ => false

/-- one `w.replace('__', '_')` step (app.py line 210). -/
def replaceUU : Word → Word
  | [] => []
  | [c] => [c]
  | c :: d :: rest =>
    if c = 95 ∧ d = 95 then 95 :: replaceUU rest
    else c :: replaceUU (d :: rest)

/-- the `while '__' in c` loop of app.py lines 209-210, run with enough
fuel (each replacement strictly shortens the word, so `w.length` steps
always reach the fixed point). -/
def collapseGo : Nat → Word → Word
  | 0, w => w
  | fuel + 1, w => if containsUU w then collapseGo fuel (replaceUU w) else w

/-- the fully iterated `while '__' in c: c = c.replace('__','_')` loop. -/
def collapseUU (w : Word) : Word := collapseGo w.length w

/-- drop leading underscores (left half of `w.strip('_')`). -/
def ldropU (w : Word) : Word := w.dropWhile (fun c => c == 95)

/-- drop trailing underscores (right half of `w.strip('_')`). -/
def rdropU (w : Word) : Word := (w.reverse.dropWhile (fun c => c == 95)).reverse

/-- `w.strip('_')` (app.py line 211): drop leading and trailing
underscores. -/
def stripEdges (w : Word) : Word := rdropU (ldropU w)

/-- one column label through `normalize_columns` (app.py lines 197-214):
lower-case, `%%`→`pct`, `%`→`pct`, `<`→`lt`, `>`→`gt`, space→`_`,
`-`→`_`, drop `'`, collapse `__` runs, strip edge `_`.
Codes: 37 `%`, 60 `<`, 62 `>`, 32 space, 45 `-`, 39 `'`, 95 `_`,
112/99/116 `pct`, 108/116 `lt`, 103/116 `gt`. -/
def normalizeLabel (w : Word) : Word :=
  stripEdges (collapseUU (replaceCh 39 [] (replaceCh 45 [95] (replaceCh 32 [95]
    (replaceCh 62 [103, 116] (replaceCh 60 [108, 116]
      (replaceCh 37 [112, 99, 116] (replacePP (lowerW w)))))))))

/-- `normalize_columns` acting on the list of column labels. -/
def normalizeColumnLabels (cols : List Word) : List Word := cols.map normalizeLabel

/-- `p` begins word `w` (used to implement Python's `in` on strings). -/
def leadsWith : Word → Word → Bool
  | [], _ => true
  | _ :: _, [] => false
  | p :: ps, c :: cs => p == c && leadsWith ps cs

/-- Python's substring test `p in w`. -/
def hasSub (p : Word) : Word → Bool
  | [] => p.isEmpty
  | c :: rest => leadsWith p (c :: rest) || hasSub p rest

/-! ### Fixed words used by the program (ASCII codes) -/

/-- "interviewer" -/
def wInterviewer : Word := [105, 110, 116, 101, 114, 118, 105, 101, 119, 101, 114]
/-- "ra" -/
def wRa : Word := [114, 97]
/-- "household" -/
def wHousehold : Word := [104, 111, 117, 115, 101, 104, 111, 108, 100]
/-- "code" -/
def wCode : Word := [99, 111, 100, 101]
/-- "status" -/
def wStatus : Word := [115, 116, 97, 116, 117, 115]
/-- "Complete" -/
def wComplete : Word := [67, 111, 109, 112, 108, 101, 116, 101]
/-- "interview" -/
def wInterview : Word := [105, 110, 116, 101, 114, 118, 105, 101, 119]
/-- "date" -/
def wDate : Word := [100, 97, 116, 101]
/-- "issue" -/
def wIssue : Word := [105, 115, 115, 117, 101]
/-- "desc" -/
def wDesc : Word := [100, 101, 115, 99]
/-- "imbalance" -/
def wImbalance : Word := [105, 109, 98, 97, 108, 97, 110, 99, 101]
/-- "nan" (what `astype(str)` prints for a NaN cell) -/
def wNan : Word := [110, 97, 110]
/-- "julie" -/
def wJulie : Word := [106, 117, 108, 105, 101]
/-- "cate" -/
def wCate : Word := [99, 97, 116, 101]
/-- "within" -/
def wWithin : Word := [119, 105, 116, 104, 105, 110]
/-- "14_16" -/
def w1416 : Word := [49, 52, 95, 49, 54]
/-- "quality" -/
def wQuality : Word := [113, 117, 97, 108, 105, 116, 121]
/-- "flag" -/
def wFlag : Word := [102, 108, 97, 103]
/-- "pct_complete" -/
def wPctComplete : Word := [112, 99, 116, 95, 99, 111, 109, 112, 108, 101, 116, 101]

/-- `EXCLUDED_RAS = ['julie', 'cate']` (app.py line 85). -/
def excludedRAs : List Word := [wJulie, wCate]

/-! ### Score maps (app.py `calculate_scores`, lines 498-525)

`pd.cut(x, bins=[b0, …, b5], labels=[1…5])` assigns label k to
`b(k-1) < x ≤ bk` and NaN (mapped to 0 by `.fillna(0)`) outside
`(b0, b5]`.  Bin edges 59.9 etc. are exact decimal fractions here;
the column values the program feeds in are integers, for which the
two readings agree. -/

/-- schedule score: `pd.cut(p, bins=[-1, 59.9, 69.9, 79.9, 89.9, 100])`
(app.py lines 504-505). -/
def scheduleScoreMap (p : ℚ) : ℕ :=
  if p ≤ -1 then 0
  else if p ≤ 599/10 then 1
  else if p ≤ 699/10 then 2
  else if p ≤ 799/10 then 3
  else if p ≤ 899/10 then 4
  else if p ≤ 100 then 5
  else 0

/-- quality score: `pd.cut(p, bins=[-1, 79.9, 84.9, 89.9, 94.9, 100])`
(app.py lines 512-513). -/
def qualityScoreMap (p : ℚ) : ℕ :=
  if p ≤ -1 then 0
  else if p ≤ 799/10 then 1
  else if p ≤ 849/10 then 2
  else if p ≤ 899/10 then 3
  else if p ≤ 949/10 then 4
  else if p ≤ 100 then 5
  else 0

/-- completion score: `pd.cut(p, bins=[-1, 59.9, 69.9, 79.9, 89.9, 100])`
(app.py lines 520-521). -/
def completionScoreMap (p : ℚ) : ℕ :=
  if p ≤ -1 then 0
  else if p ≤ 599/10 then 1
  else if p ≤ 699/10 then 2
  else if p ≤ 799/10 then 3
  else if p ≤ 899/10 then 4
  else if p ≤ 100 then 5
  else 0

/-- `next((c for c in df.columns if 'within' in c.lower() or '14_16' in c.lower()), None)`
(app.py line 502). -/
def findScheduleCol (cols : List Word) : Option Word :=
  cols.find? (fun c => hasSub wWithin (lowerW c) || hasSub w1416 (lowerW c))

/-- `next((c for c in df.columns if 'quality' in c.lower() and 'flag' in c.lower()), None)`
(app.py line 510). -/
def findQualityCol (cols : List Word) : Option Word :=
  cols.find? (fun c => hasSub wQuality (lowerW c) && hasSub wFlag (lowerW c))

/-- `next((c for c in df.columns if 'pct_complete' in c.lower() or c == 'pct_complete'), None)`
(app.py line 518). -/
def findCompletionCol (cols : List Word) : Option Word :=
  cols.find? (fun c => hasSub wPctComplete (lowerW c) || c == wPctComplete)

/-- `calculate_scores` on one row of a table with columns `cols`;
`v` gives the row's numeric value in a column after `.fillna(0)`
(so missing values are already 0).  Returns
(schedule_score, quality_score, completion_score); a score is 0 when
the metric's source column is not found (app.py lines 498-525). -/
def calculateScoresRow (cols : List Word) (v : Word → ℚ) : ℕ × ℕ × ℕ :=
  ( match findScheduleCol cols with
    | some cl => scheduleScoreMap (v cl)
    | none => 0,
    match findQualityCol cols with
    | some cl => qualityScoreMap (v cl)
    | none => 0,
    match findCompletionCol cols with
    | some cl => completionScoreMap (v cl)
    | none => 0 )

/-! ### Percentage arithmetic -/

/-- round-half-to-even of the exact rational `n / d` for `d > 0`
(the rounding NumPy's `round` applies to the float quotient):
with `f` the floor `Int.fdiv n d` and remainder `r = n - f * d`,
round down when `r < d/2`, up when `r > d/2`, and to the even
neighbour on a tie. -/
def roundHalfEvenInt (n d : ℤ) : ℤ :=
  if 2 * (n - Int.fdiv n d * d) < d then Int.fdiv n d
  else if d < 2 * (n - Int.fdiv n d * d) then Int.fdiv n d + 1
  else if Int.fdiv n d % 2 = 0 then Int.fdiv n d else Int.fdiv n d + 1

/-- `(num / total * 100).round(0).astype(int)` with `total` a row count:
`none` models the exception pandas raises when `total = 0` (the division
yields NaN/inf, which `astype(int)` refuses to convert). -/
def pctRound (num : ℤ) (total : Nat) : Option ℤ :=
  if total = 0 then none else some (roundHalfEvenInt (100 * num) total)

/-! ### Tables -/

/-- a DataFrame: column labels plus rows of optional cells
(`none` = NULL/NaN). -/
structure Table where
  cols : List Word
  rows : List (List (Option Word))
deriving DecidableEq

/-- `df[name]` for one row: cells are addressed positionally through the
label's index in the column list. -/
def cellAt (cols : List Word) (name : Word) (row : List (Option Word)) : Option Word :=
  match cols.findIdx? (fun c => c == name) with
  | some i => (row.get? i).join
  | none => none

/-- `normalize_columns(df)`: relabel the columns, keep the cells. -/
def normalizeTable (t : Table) : Table :=
  { cols := normalizeColumnLabels t.cols, rows := t.rows }

/-- `~df[ra_col].str.lower().isin(EXCLUDED_RAS)` for one row
(app.py line 259); a NaN RA cell passes the filter. -/
def notExcluded (v : Option Word) : Bool :=
  match v with
  | none => true
  | some w => !(excludedRAs.contains (lowerW w))

/-- RA column of the completion feed: first label containing
"interviewer", else first containing "ra" (app.py lines 251-253). -/
def findRaColCompletion (cols : List Word) : Option Word :=
  match cols.find? (fun c => hasSub wInterviewer (lowerW c)) with
  | some c => some c
  | none => cols.find? (fun c => hasSub wRa (lowerW c))

/-- household column: first label containing both "household" and "code"
(app.py lines 265, 293). -/
def findHhCol (cols : List Word) : Option Word :=
  cols.find? (fun c => hasSub wHousehold (lowerW c) && hasSub wCode (lowerW c))

/-- RA column of the quality feed: first label containing "ra"
(app.py line 292). -/
def findRaColQuality (cols : List Word) : Option Word :=
  cols.find? (fun c => hasSub wRa (lowerW c))

/-- interview-datetime column: first label containing both "interview"
and "date" (app.py line 297). -/
def findIntDateCol (cols : List Word) : Option Word :=
  cols.find? (fun c => hasSub wInterview (lowerW c) && hasSub wDate (lowerW c))

/-- issue-description column: first label containing both "issue" and
"desc" (app.py line 294). -/
def findIssueCol (cols : List Word) : Option Word :=
  cols.find? (fun c => hasSub wIssue (lowerW c) && hasSub wDesc (lowerW c))

/-! ### Sorting (insertion sort, used where pandas sorts) -/

/-- ordered insert for an arbitrary boolean comparison. -/
def insertLe (le : α → α → Bool) (a : α) : List α → List α
  | [] => [a]
  | b :: t => if le a b then a :: b :: t else b :: insertLe le a t

/-- insertion sort for an arbitrary boolean comparison. -/
def sortLe (le : α → α → Bool) : List α → List α
  | [] => []
  | a :: t => insertLe le a (sortLe le t)

/-- lexicographic order on words (how pandas sorts string group keys). -/
def wordLe : Word → Word → Bool
  | [], _ => true
  | _ :: _, [] => false
  | a :: as, b :: bs => a < b || (a == b && wordLe as bs)

/-! ### Completion aggregation (app.py `fetch_all_metrics`, lines 240-282) -/

/-- one aggregated completion row per RA. -/
structure CompletionAgg where
  ra_name : Word
  total_interviews : Nat
  pct_complete : Option ℤ
deriving DecidableEq

/-- the completion rows that survive the exclusion filter
`~df[ra_col].str.lower().isin(EXCLUDED_RAS)` (app.py line 259). -/
def completionFiltered (c : Table) (raCol : Word) : List (List (Option Word)) :=
  c.rows.filter (fun r => notExcluded (cellAt c.cols raCol r))

/-- the group keys of `groupby(ra_col)`: the distinct non-null RA values
(pandas sorts group keys). -/
def completionKeys (c : Table) (raCol : Word) : List Word :=
  sortLe wordLe ((completionFiltered c raCol).filterMap (cellAt c.cols raCol)).dedup

/-- one RA's group of completion rows. -/
def completionGroup (c : Table) (raCol ra : Word) : List (List (Option Word)) :=
  (completionFiltered c raCol).filter (fun r => cellAt c.cols raCol r == some ra)

/-- `total_interviews` for one RA (app.py line 274): the `count`
aggregation counts the group's non-null household cells (falling back to
the RA column when no household column is found). -/
def completionTotal (c : Table) (raCol ra : Word) : Nat :=
  match findHhCol c.cols with
  | some hc => ((completionGroup c raCol ra).filterMap (cellAt c.cols hc)).length
  | none => ((completionGroup c raCol ra).filterMap (cellAt c.cols raCol)).length

/-- one RA's aggregated completion row (app.py lines 272-280): when a
`status` column exists, `pct_complete` comes from the
`status == 'Complete'` count over `total_interviews`; with no `status`
column the group size is used and `pct_complete` is 0. -/
def completionRowFor (c : Table) (raCol ra : Word) : CompletionAgg :=
  match c.cols.find? (fun x => x == wStatus) with
  | some sc =>
    ⟨ra, completionTotal c raCol ra,
     pctRound (((completionGroup c raCol ra).filter
       (fun r => cellAt c.cols sc r == some wComplete)).length : ℤ)
       (completionTotal c raCol ra)⟩
  | none => ⟨ra, (completionGroup c raCol ra).length, some 0⟩

/-- completion side of `fetch_all_metrics` (app.py lines 240-282):
fail (`none`) on an empty feed or when no RA column can be located;
otherwise normalize the columns, exclude non-RA users and aggregate
per RA group. -/
def completionAggregate (t : Table) : Option (List CompletionAgg) :=
  if t.rows.isEmpty then none else
  match findRaColCompletion (normalizeTable t).cols with
  | none => none
  | some raCol =>
    some ((completionKeys (normalizeTable t) raCol).map
      (completionRowFor (normalizeTable t) raCol))

/-! ### Quality aggregation (app.py lines 288-351) -/

/-- one fully aggregated metrics row per RA.  `interviews_with_issues`
and `interviews_with_imbalance` are `none` in the degraded branch where
the quality feed is unusable (the code never creates those columns
there). -/
structure MetricsRow where
  ra_name : Word
  total_interviews : Nat
  pct_complete : Option ℤ
  interviews_with_issues : Option Nat
  pct_no_quality_flags : Option ℤ
  interviews_with_imbalance : Option Nat
  pct_lt5pct_imbalance : Option ℤ
deriving DecidableEq

/-- degraded branch (app.py lines 344-351): both quality percentages
default to 100. -/
def defaultQualityRow (a : CompletionAgg) : MetricsRow :=
  ⟨a.ra_name, a.total_interviews, a.pct_complete, none, some 100, none, some 100⟩

/-- the de-duplication key of one quality row (app.py lines 304-310):
`household.astype(str) + '_' + interview_date.astype(str)` when an
interview-date column exists (NaN prints as "nan", so the key is never
null), else the raw household cell (whose NaNs `nunique` then drops). -/
def interviewKey (cols : List Word) (dateCol : Option Word) (hhCol : Word)
    (row : List (Option Word)) : Option Word :=
  match dateCol with
  | some dc => some (((cellAt cols hhCol row).getD wNan) ++ 95 :: ((cellAt cols dc row).getD wNan))
  | none => cellAt cols hhCol row

/-- an RA's count of distinct issue keys (app.py line 313):
`groupby(ra)[count_col].nunique()` followed by a left merge with
`fillna(0)` equals counting distinct keys over the RA's own rows
(an RA absent from the quality feed gets 0). -/
def qualityIssueCount (q : Table) (raq hhq ra : Word) : Nat :=
  ((q.rows.filter (fun r => cellAt q.cols raq r == some ra)).filterMap
    (interviewKey q.cols (findIntDateCol q.cols) hhq)).dedup.length

/-- an RA's count of distinct issue keys among the rows whose issue
description contains "imbalance", case-insensitively (app.py
lines 321-326); 0 for every RA when no issue-description column is
found. -/
def qualityImbalanceCount (q : Table) (raq hhq ra : Word) : Nat :=
  match findIssueCol q.cols with
  | some ic =>
    (((q.rows.filter (fun r => match cellAt q.cols ic r with
        | some v => hasSub wImbalance (lowerW v)
        | none => false)).filter
          (fun r => cellAt q.cols raq r == some ra)).filterMap
            (interviewKey q.cols (findIntDateCol q.cols) hhq)).dedup.length
  | none => 0

/-- merge of the located quality feed into one RA's completion row
(app.py lines 329-343): both percentages are derived from the RA's own
`total_interviews`. -/
def mergeQualityRow (q : Table) (raq hhq : Word) (a : CompletionAgg) : MetricsRow :=
  ⟨a.ra_name, a.total_interviews, a.pct_complete,
   some (qualityIssueCount q raq hhq a.ra_name),
   pctRound ((a.total_interviews : ℤ) - qualityIssueCount q raq hhq a.ra_name)
     a.total_interviews,
   some (qualityImbalanceCount q raq hhq a.ra_name),
   pctRound ((a.total_interviews : ℤ) - qualityImbalanceCount q raq hhq a.ra_name)
     a.total_interviews⟩

/-- quality side of `fetch_all_metrics` (app.py lines 288-351): an empty
quality feed, or one in which the RA or household column cannot be
located, sends every RA to the degraded default; otherwise each RA's
quality percentages are computed from its own issue counts. -/
def qualityMerge (agg : List CompletionAgg) (quality : Table) : List MetricsRow :=
  if quality.rows.isEmpty then agg.map defaultQualityRow else
  match findRaColQuality (normalizeTable quality).cols,
      findHhCol (normalizeTable quality).cols with
  | some raq, some hhq => agg.map (mergeQualityRow (normalizeTable quality) raq hhq)
  | _, _ => agg.map defaultQualityRow

/-- `fetch_all_metrics` restricted to its two tabular inputs (the
completion feed and the quality feed); the later CF/answers/schedule
merges touch neither `pct_complete` nor the two quality percentages.
`none` models the error paths that return an empty DataFrame. -/
def fetchAllMetricsCore (completion quality : Table) : Option (List MetricsRow) :=
  (completionAggregate completion).map (fun agg => qualityMerge agg quality)

/-! ### Manual score store (app.py lines 485-495, 528-533, 1133-1137) -/

/-- the `{journal, feedback, team}` triple stored per (period, RA). -/
structure ManualTriple where
  journal : ℤ
  feedback : ℤ
  team : ℤ
deriving DecidableEq

/-- dictionary lookup (`d.get(k)`), keys compared as words. -/
def alookup (k : Word) : List (Word × β) → Option β
  | [] => none
  | (k', v) :: rest => if k' = k then some v else alookup k rest

/-- one period's scores: RA name → triple. -/
abbrev MonthScores := List (Word × ManualTriple)

/-- the whole manual-score store: period key → month scores. -/
abbrev ManualStore := List (Word × MonthScores)

/-- `month_scores[ra_name] = new_scores` (dict upsert). -/
def setMonthScore : MonthScores → Word → ManualTriple → MonthScores
  | [], ra, t => [(ra, t)]
  | (k, v) :: rest, ra, t =>
    if k = ra then (k, t) :: rest else (k, v) :: setMonthScore rest ra t

/-- `manual_scores[month_key][ra_name] = new_scores`, creating the period
entry when absent (app.py lines 1133-1137). -/
def setManualScore : ManualStore → Word → Word → ManualTriple → ManualStore
  | [], p, ra, t => [(p, [(ra, t)])]
  | (k, v) :: rest, p, ra, t =>
    if k = p then (k, setMonthScore v ra t) :: rest
    else (k, v) :: setManualScore rest p ra t

/-- `save_manual_scores` (app.py lines 492-495): persist the whole store;
JSON round-trips this data exactly, so the file state is the store. -/
def saveManualScores (s : ManualStore) : Option ManualStore := some s

/-- `load_manual_scores` (app.py lines 485-489): read the file back, or
an empty store when no file exists. -/
def loadManualScores (f : Option ManualStore) : ManualStore := f.getD []

/-- the three lookups `month_scores.get(name, {}).get(field, 0)` done by
`combine_scores` (app.py lines 530-533). -/
def getManualTriple (s : ManualStore) (period ra : Word) : ManualTriple :=
  let ms := (alookup period s).getD []
  { journal := ((alookup ra ms).map ManualTriple.journal).getD 0,
    feedback := ((alookup ra ms).map ManualTriple.feedback).getD 0,
    team := ((alookup ra ms).map ManualTriple.team).getD 0 }

/-! ### Score combination and ranking (app.py `combine_scores`, 528-538) -/

/-- one row of the automated-score table fed to `combine_scores`. -/
structure AutoRow where
  ra_name : Word
  schedule_score : ℤ
  quality_score : ℤ
  completion_score : ℤ
deriving DecidableEq

/-- one row of the combined, ranked leaderboard. -/
structure RankedRow where
  ra_name : Word
  schedule_score : ℤ
  quality_score : ℤ
  completion_score : ℤ
  journal_score : ℤ
  feedback_score : ℤ
  team_score : ℤ
  total_score : ℤ
  rank : Nat
deriving DecidableEq

/-- `rank(method='min', ascending=False)` of one value within the column:
1 plus the number of entries strictly greater. -/
def rankMin (totals : List ℤ) (t : ℤ) : Nat :=
  1 + (totals.filter (fun u => decide (t < u))).length

/-- the rows of `combine_scores` before ranking (app.py lines 529-536):
manual triples attached (all-zero default) and the six scores totalled;
`rank` is a placeholder 0 until the rank column is assigned. -/
def combinePre (auto : List AutoRow) (scores : ManualStore) (monthKey : Word) :
    List RankedRow :=
  auto.map (fun a =>
    ({ ra_name := a.ra_name, schedule_score := a.schedule_score,
       quality_score := a.quality_score, completion_score := a.completion_score,
       journal_score := (getManualTriple scores monthKey a.ra_name).journal,
       feedback_score := (getManualTriple scores monthKey a.ra_name).feedback,
       team_score := (getManualTriple scores monthKey a.ra_name).team,
       total_score := a.schedule_score + a.quality_score + a.completion_score +
         (getManualTriple scores monthKey a.ra_name).journal +
         (getManualTriple scores monthKey a.ra_name).feedback +
         (getManualTriple scores monthKey a.ra_name).team,
       rank := 0 } : RankedRow))

/-- the rows with the `rank` column assigned (app.py line 537). -/
def combineRanked (auto : List AutoRow) (scores : ManualStore) (monthKey : Word) :
    List RankedRow :=
  (combinePre auto scores monthKey).map (fun r =>
    { r with rank := (rankMin ((combinePre auto scores monthKey).map RankedRow.total_score)
        r.total_score) })

/-- `combine_scores` (app.py lines 528-538): attach the period's manual
triples, total the six scores, rank with the minimum-rank convention and
sort ascending by rank. -/
def combineScores (auto : List AutoRow) (scores : ManualStore) (monthKey : Word) :
    List RankedRow :=
  sortLe (fun a b => decide (a.rank ≤ b.rank)) (combineRanked auto scores monthKey)

/-! ### Period resolver (app.py `get_date_range`, lines 147-166) -/

/-- a calendar date as `datetime` carries it. -/
structure CalDate where
  year : Nat
  month : Nat
  day : Nat
deriving DecidableEq

/-- Gregorian leap-year rule (what `datetime` arithmetic follows). -/
def isLeapYear (y : Nat) : Bool := (y % 4 == 0 && y % 100 != 0) || (y % 400 == 0)

/-- days in a month of a given year. -/
def daysInMonth (y m : Nat) : Nat :=
  if m = 2 then (if isLeapYear y then 29 else 28)
  else if m = 4 ∨ m = 6 ∨ m = 9 ∨ m = 11 then 30
  else 31

/-- `d - pd.Timedelta(days=1)`. -/
def predDay (d : CalDate) : CalDate :=
  if 1 < d.day then ⟨d.year, d.month, d.day - 1⟩
  else if 1 < d.month then ⟨d.year, d.month - 1, daysInMonth d.year (d.month - 1)⟩
  else ⟨d.year - 1, 12, 31⟩

/-- `get_date_range(month, year)` with `datetime.now()` passed explicitly
(app.py lines 147-166); the code formats the two dates with
`strftime('%Y-%m-%d')`, which is presentation only. -/
def getDateRange (month year : Nat) (today : CalDate) : CalDate × CalDate :=
  let start : CalDate := ⟨year, month, 1⟩
  let e :=
    if month = today.month ∧ year = today.year then today
    else if month = 12 then predDay ⟨year + 1, 1, 1⟩
    else predDay ⟨year, month + 1, 1⟩
  (start, e)

/-! ### Concrete feeds used as test inputs

ASCII words: "amina" = [97,109,105,110,97]; "h1"/"h2" = [104,49]/[104,50];
"d1"/"d2" = [100,49]/[100,50]; "x" = [120]; "ra_name", "household_code",
"interview_date", "issue_description" are built from the fixed words. -/

/-- "amina" -/
def wAmina : Word := [97, 109, 105, 110, 97]
/-- "household_code" -/
def wHouseholdCode : Word := wHousehold ++ 95 :: wCode
/-- "ra_name" -/
def wRaName : Word := wRa ++ [95, 110, 97, 109, 101]
/-- "interview_date" -/
def wInterviewDate : Word := wInterview ++ 95 :: wDate
/-- "issue_description" -/
def wIssueDescription : Word :=
  wIssue ++ [95, 100, 101, 115, 99, 114, 105, 112, 116, 105, 111, 110]

/-- completion feed: RA "amina" with two complete interviews. -/
def c2CompletionTable : Table :=
  { cols := [wInterviewer, wHouseholdCode, wStatus],
    rows := [[some wAmina, some [104, 49], some wComplete],
             [some wAmina, some [104, 50], some wComplete]] }

/-- quality feed: three distinct (household, date) issue keys for "amina"
— more issue keys than the completion feed has interviews. -/
def c2QualityTable : Table :=
  { cols := [wRaName, wHouseholdCode, wInterviewDate, wIssueDescription],
    rows := [[some wAmina, some [104, 49], some [100, 49], some [120]],
             [some wAmina, some [104, 49], some [100, 50], some [120]],
             [some wAmina, some [104, 50], some [100, 49], some [120]]] }

/-- completion feed in which "amina"'s only household cell is NULL, so
the per-group `count` is 0. -/
def c3CompletionTable : Table :=
  { cols := [wInterviewer, wHouseholdCode, wStatus],
    rows := [[some wAmina, none, some wComplete]] }

/-- non-empty quality feed for the division-by-zero scenario. -/
def c3QualityTable : Table :=
  { cols := [wRaName, wHouseholdCode, wInterviewDate, wIssueDescription],
    rows := [[some wAmina, some [104, 49], some [100, 49], some [120]]] }

/-- completion feed with one complete interview for "amina". -/
def c9CompletionTable : Table :=
  { cols := [wInterviewer, wHouseholdCode, wStatus],
    rows := [[some wAmina, some [104, 49], some wComplete]] }

/-- an empty quality feed. -/
def c9QualityEmpty : Table := { cols := [], rows := [] }

/-- automated scores whose totals are [30, 25, 25, 10]. -/
def c4Auto : List AutoRow :=
  [⟨wAmina, 30, 0, 0⟩, ⟨[98], 25, 0, 0⟩, ⟨[99], 25, 0, 0⟩, ⟨[100], 10, 0, 0⟩]

/-- a period key ("2" is arbitrary). -/
def c4Key : Word := [50]

/-- the leader row `combine_scores` produces for `c4Auto`. -/
def c4Row : RankedRow := ⟨wAmina, 30, 0, 0, 0, 0, 0, 30, 1⟩

/-- a column list containing a source column for each of the three
automated metrics ("14_16", "qualityflag", "pct_complete"). -/
def scoreCols : List Word := [w1416, wQuality ++ wFlag, wPctComplete]

/-- the row the aggregator produces for `c2CompletionTable` and
`c2QualityTable`: 3 issue keys against 2 interviews gives −50. -/
def c2Row : MetricsRow := ⟨wAmina, 2, some 100, some 3, some (-50), some 0, some 100⟩

/-- the row the aggregator produces for `c3CompletionTable` and
`c3QualityTable`: `total_interviews = 0` leaves every percentage
undefined. -/
def c3Row : MetricsRow := ⟨wAmina, 0, none, some 1, none, some 0, none⟩

/-- the row the aggregator produces for `c9CompletionTable` with the
empty quality feed: both quality percentages default to 100. -/
def c9Row : MetricsRow := ⟨wAmina, 1, some 100, none, some 100, none, some 100⟩

/-! ## Lemmas: character-level facts about `normalize_columns` -/

theorem lowerN_lowerN (c : Nat) : lowerN (lowerN c) = lowerN c := by
  unfold lowerN; split_ifs <;> omega

theorem mem_lowerW {x : Nat} {w : Word} (hx : x ∈ lowerW w) : lowerN x = x := by
  obtain ⟨a, _, rfl⟩ := List.mem_map.1 hx
  exact lowerN_lowerN a

theorem mem_replaceCh {x c : Nat} {r w : Word} (hx : x ∈ replaceCh c r w) :
    (x ∈ w ∧ x ≠ c) ∨ x ∈ r := by
  induction w with
  | nil => simp [replaceCh] at hx
  | cons d rest ih =>
    simp only [replaceCh, List.mem_append] at hx
    rcases hx with h1 | h2
    · by_cases hdc : d = c
      · rw [if_pos hdc] at h1; exact Or.inr h1
      · rw [if_neg hdc] at h1
        simp only [List.mem_singleton] at h1
        exact Or.inl ⟨by rw [h1]; exact List.mem_cons_self _ _, by rw [h1]; exact hdc⟩
    · rcases ih h2 with ⟨h, hne⟩ | h
      · exact Or.inl ⟨List.mem_cons_of_mem d h, hne⟩
      · exact Or.inr h

theorem replaceCh_eq_self {c : Nat} (r : Word) {w : Word} (h : c ∉ w) :
    replaceCh c r w = w := by
  induction w with
  | nil => rfl
  | cons d rest ih =>
    have hdc : d ≠ c := fun e => h (by simp [e])
    simp only [replaceCh, if_neg hdc]
    rw [ih (fun hc => h (List.mem_cons_of_mem d hc))]
    rfl

theorem mem_replacePP {x : Nat} {w : Word} (hx : x ∈ replacePP w) :
    x ∈ w ∨ x ∈ ([112, 99, 116] : Word) := by
  induction w using replacePP.induct with
  | case1 => simp [replacePP] at hx
  | case2 c => simp only [replacePP] at hx; exact Or.inl hx
  | case3 c d rest h ih =>
    rw [replacePP, if_pos h] at hx
    simp only [List.mem_cons] at hx
    rcases hx with rfl | rfl | rfl | hx
    · exact Or.inr (by simp)
    · exact Or.inr (by simp)
    · exact Or.inr (by simp)
    · rcases ih hx with h1 | h1
      · exact Or.inl (by simp [h1])
      · exact Or.inr h1
  | case4 c d rest h ih =>
    rw [replacePP, if_neg h] at hx
    simp only [List.mem_cons] at hx
    rcases hx with rfl | hx
    · exact Or.inl (by simp)
    · rcases ih hx with h1 | h1
      · exact Or.inl (List.mem_cons_of_mem c h1)
      · exact Or.inr h1

theorem replacePP_eq_self {w : Word} (h : (37 : Nat) ∉ w) : replacePP w = w := by
  induction w using replacePP.induct with
  | case1 => rfl
  | case2 c => rfl
  | case3 c d rest hcd ih =>
    exact absurd (by simp [hcd.1]) h
  | case4 c d rest hcd ih =>
    rw [replacePP, if_neg hcd, ih (fun hm => h (List.mem_cons_of_mem c hm))]

theorem mem_replaceUU {x : Nat} {w : Word} (hx : x ∈ replaceUU w) : x ∈ w := by
  induction w using replaceUU.induct with
  | case1 => simp [replaceUU] at hx
  | case2 c => simpa [replaceUU] using hx
  | case3 c d rest h ih =>
    rw [replaceUU, if_pos h] at hx
    simp only [List.mem_cons] at hx
    rcases hx with rfl | hx
    · simp [h.1]
    · simp [ih hx]
  | case4 c d rest h ih =>
    rw [replaceUU, if_neg h] at hx
    simp only [List.mem_cons] at hx
    rcases hx with rfl | hx
    · simp
    · simpa using List.mem_cons_of_mem c (ih hx)

theorem replaceUU_length_le (w : Word) : (replaceUU w).length ≤ w.length := by
  induction w using replaceUU.induct with
  | case1 => simp [replaceUU]
  | case2 c => simp [replaceUU]
  | case3 c d rest h ih => rw [replaceUU, if_pos h]; simp; omega
  | case4 c d rest h ih => rw [replaceUU, if_neg h]; simpa using ih

theorem replaceUU_length_lt {w : Word} (h : containsUU w = true) :
    (replaceUU w).length < w.length := by
  induction w using replaceUU.induct with
  | case1 => simp [containsUU] at h
  | case2 c => simp [containsUU] at h
  | case3 c d rest hcd ih =>
    rw [replaceUU, if_pos hcd]
    have := replaceUU_length_le rest
    simp; omega
  | case4 c d rest hcd ih =>
    rw [replaceUU, if_neg hcd]
    have hc : containsUU (d :: rest) = true := by
      rw [containsUU] at h
      rcases Bool.or_eq_true_iff.1 h with h1 | h1
      · have : c = 95 ∧ d = 95 := by simpa using h1
        exact absurd this hcd
      · exact h1
    simpa using ih hc

theorem containsUU_cons {w : Word} (h : containsUU w = true) (c : Nat) :
    containsUU (c :: w) = true := by
  cases w with
  | nil => simp [containsUU] at h
  | cons d rest => rw [containsUU]; simp [h]

theorem containsUU_append {a : Word} (h : containsUU a = true) (t : Word) :
    containsUU (a ++ t) = true := by
  induction a with
  | nil => simp [containsUU] at h
  | cons c as ih =>
    cases as with
    | nil => simp [containsUU] at h
    | cons d rest =>
      rw [containsUU] at h
      rcases Bool.or_eq_true_iff.1 h with h1 | h1
      · rw [List.cons_append, List.cons_append, containsUU]
        simp [h1]
      · have := ih h1
        rw [List.cons_append]
        exact containsUU_cons (by simpa using this) c

theorem containsUU_of_suffix {s d : Word} (h : containsUU d = true) :
    containsUU (s ++ d) = true := by
  induction s with
  | nil => simpa using h
  | cons c s' ih => rw [List.cons_append]; exact containsUU_cons ih c

theorem dropWhile_suffix_decomp (p : α → Bool) (l : List α) :
    ∃ s, s ++ l.dropWhile p = l := by
  induction l with
  | nil => exact ⟨[], rfl⟩
  | cons c t ih =>
    cases hp : p c
    · exact ⟨[], by simp [List.dropWhile_cons, hp]⟩
    · obtain ⟨s, hs⟩ := ih
      exact ⟨c :: s, by simp [List.dropWhile_cons, hp, hs]⟩

theorem ldropU_decomp (w : Word) : ∃ s, s ++ ldropU w = w :=
  dropWhile_suffix_decomp _ _

theorem rdropU_decomp (w : Word) : ∃ t, rdropU w ++ t = w := by
  obtain ⟨s, hs⟩ := dropWhile_suffix_decomp (fun c => c == 95) w.reverse
  refine ⟨s.reverse, ?_⟩
  unfold rdropU
  rw [← List.reverse_append, hs, List.reverse_reverse]

theorem mem_ldropU {x : Nat} {w : Word} (hx : x ∈ ldropU w) : x ∈ w := by
  obtain ⟨s, hs⟩ := ldropU_decomp w
  rw [← hs]; exact List.mem_append.2 (Or.inr hx)

theorem mem_rdropU {x : Nat} {w : Word} (hx : x ∈ rdropU w) : x ∈ w := by
  obtain ⟨t, ht⟩ := rdropU_decomp w
  rw [← ht]; exact List.mem_append.2 (Or.inl hx)

theorem mem_stripEdges {x : Nat} {w : Word} (hx : x ∈ stripEdges w) : x ∈ w :=
  mem_ldropU (mem_rdropU hx)

theorem containsUU_stripEdges {w : Word} (h : containsUU (stripEdges w) = true) :
    containsUU w = true := by
  unfold stripEdges at h
  obtain ⟨t, ht⟩ := rdropU_decomp (ldropU w)
  have h1 : containsUU (ldropU w) = true := by
    rw [← ht]; exact containsUU_append h t
  obtain ⟨s, hs⟩ := ldropU_decomp w
  rw [← hs]
  exact containsUU_of_suffix h1

theorem collapseGo_of_not {w : Word} (h : containsUU w = false) :
    ∀ n, collapseGo n w = w
  | 0 => rfl
  | n + 1 => by simp [collapseGo, h]

theorem mem_collapseGo {x : Nat} : ∀ {n : Nat} {w : Word}, x ∈ collapseGo n w → x ∈ w := by
  intro n
  induction n with
  | zero => intro w hx; exact hx
  | succ n ih =>
    intro w hx
    rw [collapseGo] at hx
    by_cases hc : containsUU w = true
    · rw [if_pos hc] at hx
      exact mem_replaceUU (ih hx)
    · rwa [if_neg hc] at hx

theorem collapseGo_no_uu : ∀ (n : Nat) (w : Word), w.length ≤ n →
    containsUU (collapseGo n w) = false := by
  intro n
  induction n with
  | zero =>
    intro w hw
    have : w = [] := List.length_eq_zero.1 (Nat.le_zero.1 hw)
    subst this; rfl
  | succ n ih =>
    intro w hw
    rw [collapseGo]
    cases hc : containsUU w with
    | false =>
      rw [if_neg (by simp)]
      exact hc
    | true =>
      rw [if_pos rfl]
      exact ih _ (by have := replaceUU_length_lt hc; omega)

theorem mem_collapseUU {x : Nat} {w : Word} (hx : x ∈ collapseUU w) : x ∈ w :=
  mem_collapseGo hx

theorem collapseUU_no_uu (w : Word) : containsUU (collapseUU w) = false :=
  collapseGo_no_uu _ _ le_rfl

theorem collapseUU_of_not {w : Word} (h : containsUU w = false) : collapseUU w = w :=
  collapseGo_of_not h _

theorem dropWhile_dropWhile (p : α → Bool) (l : List α) :
    (l.dropWhile p).dropWhile p = l.dropWhile p := by
  induction l with
  | nil => rfl
  | cons c t ih => cases hp : p c <;> simp [List.dropWhile_cons, hp, ih]

theorem ldropU_idem (w : Word) : ldropU (ldropU w) = ldropU w :=
  dropWhile_dropWhile _ _

theorem rdropU_idem (w : Word) : rdropU (rdropU w) = rdropU w := by
  unfold rdropU
  rw [List.reverse_reverse, dropWhile_dropWhile]

theorem ldropU_head_ne {w : Word} {c : Nat} {t : Word} (h : ldropU w = c :: t) :
    c ≠ 95 := by
  induction w with
  | nil => simp [ldropU] at h
  | cons d rest ih =>
    rw [ldropU, List.dropWhile_cons] at h
    by_cases hd : (d == 95) = true
    · rw [if_pos hd] at h; exact ih h
    · rw [if_neg hd] at h
      have : d = c := (List.cons.injEq _ _ _ _ ▸ h).1
      subst this
      simpa using hd

theorem ldropU_of_head {c : Nat} (hc : c ≠ 95) (t : Word) :
    ldropU (c :: t) = c :: t := by
  rw [ldropU, List.dropWhile_cons, if_neg (by simp [hc])]

theorem ldropU_rdropU (w : Word) : ldropU (rdropU (ldropU w)) = rdropU (ldropU w) := by
  cases hv : ldropU w with
  | nil => rfl
  | cons c t =>
    have hc : c ≠ 95 := ldropU_head_ne hv
    obtain ⟨u, hu⟩ := rdropU_decomp (c :: t)
    cases hr : rdropU (c :: t) with
    | nil => rfl
    | cons d s =>
      rw [hr] at hu
      have hd : d = c := by
        have := hu
        rw [List.cons_append] at this
        exact (List.cons.injEq _ _ _ _ ▸ this).1
      subst hd
      exact ldropU_of_head hc s

theorem stripEdges_idem (w : Word) : stripEdges (stripEdges w) = stripEdges w := by
  show rdropU (ldropU (rdropU (ldropU w))) = rdropU (ldropU w)
  rw [ldropU_rdropU, rdropU_idem]

theorem map_self_of_fixed {f : Nat → Nat} {l : Word} (h : ∀ c ∈ l, f c = c) :
    l.map f = l := by
  have h2 : l.map f = l.map id := List.map_congr_left h
  rw [h2, List.map_id]

theorem goodChar_normalizeLabel {x : Nat} {w : Word} (hx : x ∈ normalizeLabel w) :
    lowerN x = x ∧ x ≠ 37 ∧ x ≠ 60 ∧ x ≠ 62 ∧ x ≠ 32 ∧ x ≠ 45 ∧ x ≠ 39 := by
  unfold normalizeLabel at hx
  have h1 := mem_collapseUU (mem_stripEdges hx)
  rcases mem_replaceCh h1 with ⟨h2, hne39⟩ | hr
  · rcases mem_replaceCh h2 with ⟨h3, hne45⟩ | hr
    · rcases mem_replaceCh h3 with ⟨h4, hne32⟩ | hr
      · rcases mem_replaceCh h4 with ⟨h5, hne62⟩ | hr
        · rcases mem_replaceCh h5 with ⟨h6, hne60⟩ | hr
          · rcases mem_replaceCh h6 with ⟨h7, hne37⟩ | hr
            · rcases mem_replacePP h7 with hl | hr
              · exact ⟨mem_lowerW hl, hne37, hne60, hne62, hne32, hne45, hne39⟩
              · simp only [List.mem_cons, List.not_mem_nil, or_false] at hr
                rcases hr with rfl | rfl | rfl <;> decide
            · simp only [List.mem_cons, List.not_mem_nil, or_false] at hr
              rcases hr with rfl | rfl | rfl <;> decide
          · simp only [List.mem_cons, List.not_mem_nil, or_false] at hr
            rcases hr with rfl | rfl <;> decide
        · simp only [List.mem_cons, List.not_mem_nil, or_false] at hr
          rcases hr with rfl | rfl <;> decide
      · simp only [List.mem_singleton] at hr
        subst hr; decide
    · simp only [List.mem_singleton] at hr
      subst hr; decide
  · simp at hr

theorem normalizeLabel_noUU (w : Word) : containsUU (normalizeLabel w) = false := by
  by_contra hne
  rw [Bool.not_eq_false] at hne
  unfold normalizeLabel at hne
  have h := containsUU_stripEdges hne
  have h0 := collapseUU_no_uu (replaceCh 39 [] (replaceCh 45 [95] (replaceCh 32 [95]
    (replaceCh 62 [103, 116] (replaceCh 60 [108, 116]
      (replaceCh 37 [112, 99, 116] (replacePP (lowerW w))))))))
  rw [h0] at h
  exact Bool.false_ne_true h

theorem normalizeLabel_notMem {c : Nat} {w : Word}
    (hc : ∀ x, lowerN x = x ∧ x ≠ 37 ∧ x ≠ 60 ∧ x ≠ 62 ∧ x ≠ 32 ∧ x ≠ 45 ∧ x ≠ 39 →
      x ≠ c) : c ∉ normalizeLabel w :=
  fun hmem => hc c (goodChar_normalizeLabel hmem) rfl

theorem normalizeLabel_idem (w : Word) :
    normalizeLabel (normalizeLabel w) = normalizeLabel w := by
  have hlow : lowerW (normalizeLabel w) = normalizeLabel w :=
    map_self_of_fixed (fun c hc => (goodChar_normalizeLabel hc).1)
  have h37 : (37 : Nat) ∉ normalizeLabel w :=
    normalizeLabel_notMem (fun x hx => hx.2.1)
  have h60 : (60 : Nat) ∉ normalizeLabel w :=
    normalizeLabel_notMem (fun x hx => hx.2.2.1)
  have h62 : (62 : Nat) ∉ normalizeLabel w :=
    normalizeLabel_notMem (fun x hx => hx.2.2.2.1)
  have h32 : (32 : Nat) ∉ normalizeLabel w :=
    normalizeLabel_notMem (fun x hx => hx.2.2.2.2.1)
  have h45 : (45 : Nat) ∉ normalizeLabel w :=
    normalizeLabel_notMem (fun x hx => hx.2.2.2.2.2.1)
  have h39 : (39 : Nat) ∉ normalizeLabel w :=
    normalizeLabel_notMem (fun x hx => hx.2.2.2.2.2.2)
  conv_lhs => rw [normalizeLabel]
  rw [hlow, replacePP_eq_self h37, replaceCh_eq_self _ h37, replaceCh_eq_self _ h60,
    replaceCh_eq_self _ h62, replaceCh_eq_self _ h32, replaceCh_eq_self _ h45,
    replaceCh_eq_self _ h39, collapseUU_of_not (normalizeLabel_noUU w)]
  show stripEdges (stripEdges (collapseUU (replaceCh 39 [] (replaceCh 45 [95]
    (replaceCh 32 [95] (replaceCh 62 [103, 116] (replaceCh 60 [108, 116]
      (replaceCh 37 [112, 99, 116] (replacePP (lowerW w)))))))))) = normalizeLabel w
  rw [stripEdges_idem]
  rfl

/-! ## Lemmas: sorting -/

theorem mem_insertLe {le : α → α → Bool} {a x : α} {l : List α} :
    x ∈ insertLe le a l ↔ x = a ∨ x ∈ l := by
  induction l with
  | nil => simp [insertLe]
  | cons b t ih =>
    rw [insertLe]
    by_cases h : le a b = true
    · rw [if_pos h]
      simp [List.mem_cons, or_comm, or_assoc, or_left_comm]
    · rw [if_neg h]
      simp only [List.mem_cons, ih]
      tauto

theorem insertLe_perm (le : α → α → Bool) (a : α) (l : List α) :
    (insertLe le a l).Perm (a :: l) := by
  induction l with
  | nil => exact List.Perm.refl _
  | cons b t ih =>
    rw [insertLe]
    by_cases h : le a b = true
    · rw [if_pos h]
    · rw [if_neg h]
      exact (ih.cons b).trans (List.Perm.swap a b t)

theorem sortLe_perm (le : α → α → Bool) (l : List α) : (sortLe le l).Perm l := by
  induction l with
  | nil => exact List.Perm.refl _
  | cons a t ih =>
    rw [sortLe]
    exact (insertLe_perm le a (sortLe le t)).trans (ih.cons a)

theorem mem_sortLe {le : α → α → Bool} {x : α} {l : List α} :
    x ∈ sortLe le l ↔ x ∈ l :=
  (sortLe_perm le l).mem_iff

theorem pairwise_insertLe {le : α → α → Bool}
    (htot : ∀ a b, le a b = true ∨ le b a = true)
    (htr : ∀ a b c, le a b = true → le b c = true → le a c = true)
    {a : α} {l : List α} (hl : List.Pairwise (fun x y => le x y = true) l) :
    List.Pairwise (fun x y => le x y = true) (insertLe le a l) := by
  induction l with
  | nil => simp [insertLe]
  | cons b t ih =>
    rw [insertLe]
    rcases List.pairwise_cons.1 hl with ⟨hb, ht⟩
    by_cases h : le a b = true
    · rw [if_pos h]
      refine List.pairwise_cons.2 ⟨?_, hl⟩
      intro x hx
      rcases List.mem_cons.1 hx with rfl | hx
      · exact h
      · exact htr a b x h (hb x hx)
    · rw [if_neg h]
      have hba : le b a = true := (htot a b).resolve_left h
      refine List.pairwise_cons.2 ⟨?_, ih ht⟩
      intro x hx
      rcases mem_insertLe.1 hx with rfl | hx
      · exact hba
      · exact hb x hx

theorem pairwise_sortLe {le : α → α → Bool}
    (htot : ∀ a b, le a b = true ∨ le b a = true)
    (htr : ∀ a b c, le a b = true → le b c = true → le a c = true)
    (l : List α) : List.Pairwise (fun x y => le x y = true) (sortLe le l) := by
  induction l with
  | nil => simp [sortLe]
  | cons a t ih =>
    rw [sortLe]
    exact pairwise_insertLe htot htr ih

/-! ## Lemmas: the manual-score store -/

theorem alookup_setMonthScore (ms : MonthScores) (ra : Word) (t : ManualTriple) :
    alookup ra (setMonthScore ms ra t) = some t := by
  induction ms with
  | nil => simp [setMonthScore, alookup]
  | cons kv rest ih =>
    obtain ⟨k, v⟩ := kv
    rw [setMonthScore]
    by_cases h : k = ra
    · rw [if_pos h, alookup, if_pos h]
    · rw [if_neg h, alookup, if_neg h]
      exact ih

theorem alookup_setManualScore (s : ManualStore) (p ra : Word) (t : ManualTriple) :
    ∃ ms, alookup p (setManualScore s p ra t) = some ms ∧ alookup ra ms = some t := by
  induction s with
  | nil =>
    refine ⟨[(ra, t)], ?_, ?_⟩ <;> simp [setManualScore, alookup]
  | cons kv rest ih =>
    obtain ⟨k, v⟩ := kv
    rw [setManualScore]
    by_cases h : k = p
    · exact ⟨setMonthScore v ra t, by rw [if_pos h, alookup, if_pos h],
        alookup_setMonthScore v ra t⟩
    · obtain ⟨ms, h1, h2⟩ := ih
      exact ⟨ms, by rw [if_neg h, alookup, if_neg h]; exact h1, h2⟩

/-! ## Lemmas: rounding bounds -/

theorem le_roundHalfEvenInt {n d m : ℤ} (hd : 0 < d) (h : m * d ≤ n) :
    m ≤ roundHalfEvenInt n d := by
  have hfd : Int.fdiv n d = n / d := Int.fdiv_eq_ediv n (le_of_lt hd)
  have hfm : m ≤ n / d := by
    have h2 := Int.ediv_le_ediv hd h
    rwa [Int.mul_ediv_cancel m (by omega)] at h2
  unfold roundHalfEvenInt
  rw [hfd]
  split_ifs <;> omega

theorem roundHalfEvenInt_le {n d m : ℤ} (hd : 0 < d) (h : n ≤ m * d) :
    roundHalfEvenInt n d ≤ m := by
  have hfd : Int.fdiv n d = n / d := Int.fdiv_eq_ediv n (le_of_lt hd)
  have hfm : n / d ≤ m := by
    have h2 := Int.ediv_le_ediv hd h
    rwa [Int.mul_ediv_cancel m (by omega)] at h2
  have hr : n - n / d * d = n % d := by rw [Int.emod_def]; ring
  have h0 : 0 ≤ n % d := Int.emod_nonneg n (by omega)
  have he : n % d = n - d * (n / d) := Int.emod_def n d
  have hstep : ¬ (2 * (n - n / d * d) < d) → n / d + 1 ≤ m := by
    intro hc
    rw [hr] at hc
    by_contra hm
    have hmf : m ≤ n / d := by omega
    have hp : m * d ≤ n / d * d := mul_le_mul_of_nonneg_right hmf (le_of_lt hd)
    have hcomm : n / d * d = d * (n / d) := mul_comm _ _
    omega
  unfold roundHalfEvenInt
  rw [hfd]
  split_ifs with c1 c2 c3
  · exact hfm
  · exact hstep c1
  · exact hfm
  · exact hstep c1

/-! ## Lemmas: aggregation inversion -/

theorem fetchAllMetricsCore_inv {c q : Table} {out : List MetricsRow}
    (h : fetchAllMetricsCore c q = some out) :
    ∃ agg, completionAggregate c = some agg ∧ out = qualityMerge agg q := by
  unfold fetchAllMetricsCore at h
  cases hc : completionAggregate c with
  | none => rw [hc] at h; simp at h
  | some agg =>
    rw [hc] at h
    simp only [Option.map, Option.some.injEq] at h
    exact ⟨agg, rfl, h.symm⟩

theorem qualityMerge_cases {agg : List CompletionAgg} {q : Table} {r : MetricsRow}
    (hr : r ∈ qualityMerge agg q) :
    (∃ a ∈ agg, r = defaultQualityRow a) ∨
    (∃ raq hhq, q.rows.isEmpty = false ∧
      findRaColQuality (normalizeTable q).cols = some raq ∧
      findHhCol (normalizeTable q).cols = some hhq ∧
      ∃ a ∈ agg, r = mergeQualityRow (normalizeTable q) raq hhq a) := by
  unfold qualityMerge at hr
  by_cases he : q.rows.isEmpty
  · rw [if_pos he] at hr
    obtain ⟨a, ha, rfl⟩ := List.mem_map.1 hr
    exact Or.inl ⟨a, ha, rfl⟩
  · rw [if_neg he] at hr
    cases hra : findRaColQuality (normalizeTable q).cols with
    | none =>
      rw [hra] at hr
      obtain ⟨a, ha, rfl⟩ := List.mem_map.1 hr
      exact Or.inl ⟨a, ha, rfl⟩
    | some raq =>
      rw [hra] at hr
      cases hhh : findHhCol (normalizeTable q).cols with
      | none =>
        rw [hhh] at hr
        obtain ⟨a, ha, rfl⟩ := List.mem_map.1 hr
        exact Or.inl ⟨a, ha, rfl⟩
      | some hhq =>
        rw [hhh] at hr
        obtain ⟨a, ha, rfl⟩ := List.mem_map.1 hr
        exact Or.inr ⟨raq, hhq, by simpa using he, rfl, rfl, a, ha, rfl⟩

theorem completionAggregate_inv {t : Table} {agg : List CompletionAgg}
    {a : CompletionAgg} (h : completionAggregate t = some agg) (ha : a ∈ agg) :
    ∃ raCol ra, ra ∈ completionKeys (normalizeTable t) raCol ∧
      a = completionRowFor (normalizeTable t) raCol ra := by
  unfold completionAggregate at h
  by_cases he : t.rows.isEmpty
  · rw [if_pos he] at h; simp at h
  · rw [if_neg he] at h
    cases hf : findRaColCompletion (normalizeTable t).cols with
    | none => rw [hf] at h; simp at h
    | some raCol =>
      rw [hf] at h
      have heq := Option.some.inj h
      rw [← heq] at ha
      obtain ⟨ra, hra, rfl⟩ := List.mem_map.1 ha
      exact ⟨raCol, ra, hra, rfl⟩

theorem completionKeys_grp_ne {c : Table} {raCol ra : Word}
    (h : ra ∈ completionKeys c raCol) : completionGroup c raCol ra ≠ [] := by
  unfold completionKeys at h
  obtain ⟨row, hrow, hcell⟩ := List.mem_filterMap.1 (List.mem_dedup.1 (mem_sortLe.1 h))
  intro hnil
  have hmem : row ∈ completionGroup c raCol ra :=
    List.mem_filter.2 ⟨hrow, by simp [hcell]⟩
  rw [hnil] at hmem
  exact absurd hmem (List.not_mem_nil row)

theorem completionRowFor_total_zero {c : Table} {raCol ra : Word}
    (hmem : ra ∈ completionKeys c raCol)
    (h0 : (completionRowFor c raCol ra).total_interviews = 0) :
    (completionRowFor c raCol ra).pct_complete = none := by
  unfold completionRowFor at h0 ⊢
  cases hsc : c.cols.find? (fun x => x == wStatus) with
  | some sc =>
    rw [hsc] at h0
    dsimp only at h0 ⊢
    simp [pctRound, h0]
  | none =>
    rw [hsc] at h0
    dsimp only at h0
    exact absurd (List.length_eq_zero.1 h0) (completionKeys_grp_ne hmem)

/-! ## Lemmas: score maps -/

theorem scheduleScoreMap_mono {p q : ℚ} (hp : 0 ≤ p) (hq : q ≤ 100) (hpq : p ≤ q) :
    scheduleScoreMap p ≤ scheduleScoreMap q := by
  unfold scheduleScoreMap
  split_ifs <;> first | omega | (exfalso; linarith)

theorem qualityScoreMap_mono {p q : ℚ} (hp : 0 ≤ p) (hq : q ≤ 100) (hpq : p ≤ q) :
    qualityScoreMap p ≤ qualityScoreMap q := by
  unfold qualityScoreMap
  split_ifs <;> first | omega | (exfalso; linarith)

theorem completionScoreMap_mono {p q : ℚ} (hp : 0 ≤ p) (hq : q ≤ 100) (hpq : p ≤ q) :
    completionScoreMap p ≤ completionScoreMap q := by
  unfold completionScoreMap
  split_ifs <;> first | omega | (exfalso; linarith)

theorem scheduleScoreMap_range {p : ℚ} (h0 : 0 ≤ p) (h1 : p ≤ 100) :
    1 ≤ scheduleScoreMap p ∧ scheduleScoreMap p ≤ 5 := by
  unfold scheduleScoreMap
  split_ifs <;> first | omega | (exfalso; linarith)

theorem qualityScoreMap_range {p : ℚ} (h0 : 0 ≤ p) (h1 : p ≤ 100) :
    1 ≤ qualityScoreMap p ∧ qualityScoreMap p ≤ 5 := by
  unfold qualityScoreMap
  split_ifs <;> first | omega | (exfalso; linarith)

theorem completionScoreMap_range {p : ℚ} (h0 : 0 ≤ p) (h1 : p ≤ 100) :
    1 ≤ completionScoreMap p ∧ completionScoreMap p ≤ 5 := by
  unfold completionScoreMap
  split_ifs <;> first | omega | (exfalso; linarith)

theorem scoreMaps_out_of_range {p : ℚ} (h : p ≤ -1 ∨ 100 < p) :
    scheduleScoreMap p = 0 ∧ qualityScoreMap p = 0 ∧ completionScoreMap p = 0 := by
  unfold scheduleScoreMap qualityScoreMap completionScoreMap
  rcases h with h | h <;> split_ifs <;> first | decide | (exfalso; linarith)

/-! ## Claim theorems -/

theorem normalizeColumnLabels_idem (cols : List Word) :
    normalizeColumnLabels (normalizeColumnLabels cols) = normalizeColumnLabels cols := by
  induction cols with
  | nil => rfl
  | cons c rest ih =>
    show normalizeLabel (normalizeLabel c) :: normalizeColumnLabels (normalizeColumnLabels rest)
      = normalizeLabel c :: normalizeColumnLabels rest
    rw [normalizeLabel_idem, ih]

/-- C6: `normalize_columns` is idempotent — applying it twice to any
table yields exactly the same column labels as applying it once. -/
theorem c6_normalize_columns_idempotent (t : Table) :
    normalizeTable (normalizeTable t) = normalizeTable t := by
  unfold normalizeTable
  rw [normalizeColumnLabels_idem]

/-- C7: for every month 1..12 and year, `get_date_range` starts at the
first day of the month and ends at the last day of the month (the
December request wraps into January of the next year for the
subtraction), except that the current calendar month ends at today's
date. -/
theorem c7_get_date_range (m y : ℕ) (today : CalDate) (h1 : 1 ≤ m) (h2 : m ≤ 12) :
    (getDateRange m y today).1 = ⟨y, m, 1⟩ ∧
    ((m = today.month ∧ y = today.year) → (getDateRange m y today).2 = today) ∧
    (¬(m = today.month ∧ y = today.year) →
      (getDateRange m y today).2 = ⟨y, m, daysInMonth y m⟩) := by
  refine ⟨rfl, ?_, ?_⟩
  · intro hc
    unfold getDateRange
    dsimp only
    rw [if_pos hc]
  · intro hc
    unfold getDateRange
    dsimp only
    rw [if_neg hc]
    by_cases hm : m = 12
    · subst hm
      rw [if_pos rfl]
      rfl
    · rw [if_neg hm]
      unfold predDay
      dsimp only
      rw [if_neg (by decide : ¬ ((1 : ℕ) < 1)), if_pos (by omega : 1 < m + 1)]
      rfl

/-- C7 witness: December 2024 viewed from 2025-01-15 runs from the 1st
to the 31st of December; the current-month condition is false there. -/
theorem c7_get_date_range_witness :
    (getDateRange 12 2024 ⟨2025, 1, 15⟩).1 = ⟨2024, 12, 1⟩ ∧
    ((12 = (⟨2025, 1, 15⟩ : CalDate).month ∧ 2024 = (⟨2025, 1, 15⟩ : CalDate).year) →
      (getDateRange 12 2024 ⟨2025, 1, 15⟩).2 = ⟨2025, 1, 15⟩) ∧
    (¬(12 = (⟨2025, 1, 15⟩ : CalDate).month ∧ 2024 = (⟨2025, 1, 15⟩ : CalDate).year) →
      (getDateRange 12 2024 ⟨2025, 1, 15⟩).2 = ⟨2024, 12, daysInMonth 2024 12⟩) :=
  c7_get_date_range 12 2024 ⟨2025, 1, 15⟩ (by decide) (by decide)

/-- C8: a manual-score triple written through `save_manual_scores` and
read back through `load_manual_scores` round-trips exactly for its
(period, RA) key, and a (period, RA) pair with no stored entry reads
back as the all-zero triple. -/
theorem c8_manual_scores_roundtrip (s : ManualStore) (p ra : Word) (t : ManualTriple)
    (s' : ManualStore) (p' ra' : Word)
    (habs : alookup ra' ((alookup p' s').getD []) = none) :
    getManualTriple (loadManualScores (saveManualScores (setManualScore s p ra t))) p ra
      = t ∧
    getManualTriple s' p' ra' = ⟨0, 0, 0⟩ := by
  constructor
  · obtain ⟨ms, hp, hra⟩ := alookup_setManualScore s p ra t
    show getManualTriple (setManualScore s p ra t) p ra = t
    unfold getManualTriple
    rw [hp]
    simp only [Option.getD_some, hra, Option.map_some']
  · unfold getManualTriple
    dsimp only
    rw [habs]
    rfl

/-- C8 witness: store triple (5,4,3) for period "1", RA "a" into an
empty store and read it back; reading the empty store gives zeros. -/
theorem c8_manual_scores_roundtrip_witness :
    getManualTriple
      (loadManualScores (saveManualScores (setManualScore [] [49] [97] ⟨5, 4, 3⟩)))
      [49] [97] = ⟨5, 4, 3⟩ ∧
    getManualTriple [] [49] [97] = ⟨0, 0, 0⟩ :=
  c8_manual_scores_roundtrip [] [49] [97] ⟨5, 4, 3⟩ [] [49] [97] (by decide)

/-- C1 counterexample: the quality metric does not use the
60/70/80/90 breakpoints the other two metrics use — at
`pct_no_quality_flags = 70` the computed quality score is 1, not 3
(the schedule map does give 3 at 70). -/
theorem c1_quality_breakpoints_counterexample :
    qualityScoreMap 70 = 1 ∧ scheduleScoreMap 70 = 3 ∧ qualityScoreMap 70 ≠ 3 := by
  refine ⟨?_, ?_, ?_⟩ <;> norm_num [qualityScoreMap, scheduleScoreMap]

/-- C1 (amended): on the integer percentages the program stores,
schedule and completion share the breakpoints 60/70/80/90
(1 for p < 60, …, 5 for p ≥ 90), while quality uses its own breakpoints
80/85/90/95 (1 for p < 80, …, 5 for p ≥ 95), as the admin rubric in the
app documents. -/
theorem c1_score_breakpoints_amended (n : ℕ) (hn : n ≤ 100) :
    scheduleScoreMap (n : ℚ) =
      (if n < 60 then 1 else if n < 70 then 2 else if n < 80 then 3
       else if n < 90 then 4 else 5) ∧
    completionScoreMap (n : ℚ) =
      (if n < 60 then 1 else if n < 70 then 2 else if n < 80 then 3
       else if n < 90 then 4 else 5) ∧
    qualityScoreMap (n : ℚ) =
      (if n < 80 then 1 else if n < 85 then 2 else if n < 90 then 3
       else if n < 95 then 4 else 5) := by
  interval_cases n <;>
    norm_num [scheduleScoreMap, completionScoreMap, qualityScoreMap]

/-- C1 amended witness: at 70 the schedule and completion scores are 3
while the quality score is 1. -/
theorem c1_score_breakpoints_amended_witness :
    scheduleScoreMap ((70 : ℕ) : ℚ) = 3 ∧ completionScoreMap ((70 : ℕ) : ℚ) = 3 ∧
    qualityScoreMap ((70 : ℕ) : ℚ) = 1 := by
  have h := c1_score_breakpoints_amended 70 (by decide)
  refine ⟨?_, ?_, ?_⟩
  · rw [h.1]; decide
  · rw [h.2.1]; decide
  · rw [h.2.2]; decide

/-- C10: in `calculate_scores`, when a metric's source column is present
but the row's value lies outside `(-1, 100]` — at or below −1, or above
100 — `pd.cut` yields NaN and `.fillna(0)` turns the row's score into
the 0 sentinel rather than clamping to 1 or 5. -/
theorem c10_out_of_range_zero (cols : List Word) (v : Word → ℚ) (c1 c2 c3 : Word)
    (h1 : findScheduleCol cols = some c1) (h2 : findQualityCol cols = some c2)
    (h3 : findCompletionCol cols = some c3)
    (hv1 : v c1 ≤ -1 ∨ 100 < v c1) (hv2 : v c2 ≤ -1 ∨ 100 < v c2)
    (hv3 : v c3 ≤ -1 ∨ 100 < v c3) :
    calculateScoresRow cols v = (0, 0, 0) := by
  unfold calculateScoresRow
  rw [h1, h2, h3]
  dsimp only
  rw [(scoreMaps_out_of_range hv1).1, (scoreMaps_out_of_range hv2).2.1,
    (scoreMaps_out_of_range hv3).2.2]

/-- C10 witness: with all three source columns present and every value
150, all three scores are 0. -/
theorem c10_out_of_range_zero_witness :
    calculateScoresRow scoreCols (fun _ => 150) = (0, 0, 0) :=
  c10_out_of_range_zero scoreCols (fun _ => 150) w1416 (wQuality ++ wFlag) wPctComplete
    (by decide) (by decide) (by decide) (Or.inr (by decide)) (Or.inr (by decide))
    (Or.inr (by decide))

/-- C5: each of the three metric-to-score mappings of `calculate_scores`
is monotone non-decreasing on [0, 100] and lands in 1..5 there; a row's
computed score is 0 exactly when the metric's source column cannot be
found, never because the percentage is 0. -/
theorem c5_score_maps_monotone_range (p q : ℚ) (hp0 : 0 ≤ p) (hp1 : p ≤ 100)
    (hq0 : 0 ≤ q) (hq1 : q ≤ 100) (hpq : p ≤ q)
    (cols : List Word) (v : Word → ℚ) (c1 c2 c3 : Word)
    (h1 : findScheduleCol cols = some c1) (h2 : findQualityCol cols = some c2)
    (h3 : findCompletionCol cols = some c3)
    (hv1 : 0 ≤ v c1 ∧ v c1 ≤ 100) (hv2 : 0 ≤ v c2 ∧ v c2 ≤ 100)
    (hv3 : 0 ≤ v c3 ∧ v c3 ≤ 100)
    (cols0 : List Word) (v0 : Word → ℚ)
    (g1 : findScheduleCol cols0 = none) (g2 : findQualityCol cols0 = none)
    (g3 : findCompletionCol cols0 = none) :
    (scheduleScoreMap p ≤ scheduleScoreMap q ∧ qualityScoreMap p ≤ qualityScoreMap q ∧
      completionScoreMap p ≤ completionScoreMap q) ∧
    ((1 ≤ scheduleScoreMap p ∧ scheduleScoreMap p ≤ 5) ∧
      (1 ≤ qualityScoreMap p ∧ qualityScoreMap p ≤ 5) ∧
      (1 ≤ completionScoreMap p ∧ completionScoreMap p ≤ 5)) ∧
    ((calculateScoresRow cols v).1 ≠ 0 ∧ (calculateScoresRow cols v).2.1 ≠ 0 ∧
      (calculateScoresRow cols v).2.2 ≠ 0) ∧
    calculateScoresRow cols0 v0 = (0, 0, 0) := by
  refine ⟨⟨scheduleScoreMap_mono hp0 hq1 hpq, qualityScoreMap_mono hp0 hq1 hpq,
    completionScoreMap_mono hp0 hq1 hpq⟩,
    ⟨scheduleScoreMap_range hp0 hp1, qualityScoreMap_range hp0 hp1,
      completionScoreMap_range hp0 hp1⟩, ?_, ?_⟩
  · unfold calculateScoresRow
    rw [h1, h2, h3]
    dsimp only
    have e1 := scheduleScoreMap_range hv1.1 hv1.2
    have e2 := qualityScoreMap_range hv2.1 hv2.2
    have e3 := completionScoreMap_range hv3.1 hv3.2
    exact ⟨by omega, by omega, by omega⟩
  · unfold calculateScoresRow
    rw [g1, g2, g3]

/-- C5 witness: p = 0 and q = 70 on a table holding all three source
columns with every value 0 — all three scores are nonzero (the 0
sentinel appears only for the empty column list). -/
theorem c5_score_maps_monotone_range_witness :
    (scheduleScoreMap 0 ≤ scheduleScoreMap 70 ∧ qualityScoreMap 0 ≤ qualityScoreMap 70 ∧
      completionScoreMap 0 ≤ completionScoreMap 70) ∧
    ((1 ≤ scheduleScoreMap 0 ∧ scheduleScoreMap 0 ≤ 5) ∧
      (1 ≤ qualityScoreMap 0 ∧ qualityScoreMap 0 ≤ 5) ∧
      (1 ≤ completionScoreMap 0 ∧ completionScoreMap 0 ≤ 5)) ∧
    ((calculateScoresRow scoreCols (fun _ => 0)).1 ≠ 0 ∧
      (calculateScoresRow scoreCols (fun _ => 0)).2.1 ≠ 0 ∧
      (calculateScoresRow scoreCols (fun _ => 0)).2.2 ≠ 0) ∧
    calculateScoresRow [] (fun _ => 0) = (0, 0, 0) :=
  c5_score_maps_monotone_range 0 70 (by decide) (by decide) (by decide) (by decide)
    (by decide) scoreCols (fun _ => 0) w1416 (wQuality ++ wFlag) wPctComplete
    (by decide) (by decide) (by decide) ⟨by decide, by decide⟩ ⟨by decide, by decide⟩
    ⟨by decide, by decide⟩ [] (fun _ => 0) (by decide) (by decide) (by decide)

/-- C4: every row `combine_scores` returns carries
rank = 1 + (number of rows with strictly greater total_score), the
output is sorted ascending by rank, and totals [30, 25, 25, 10] get
ranks [1, 2, 2, 4]. -/
theorem c4_rank_min_sorted (auto : List AutoRow) (scores : ManualStore)
    (monthKey : Word) (r : RankedRow)
    (hr : r ∈ combineScores auto scores monthKey) :
    r.rank = 1 + (((combineScores auto scores monthKey).map RankedRow.total_score).filter
      (fun u => decide (r.total_score < u))).length ∧
    List.Pairwise (fun a b : RankedRow => a.rank ≤ b.rank)
      (combineScores auto scores monthKey) ∧
    (combineScores c4Auto [] c4Key).map RankedRow.rank = [1, 2, 2, 4] := by
  have hperm : (combineScores auto scores monthKey).Perm
      (combineRanked auto scores monthKey) := sortLe_perm _ _
  refine ⟨?_, ?_, by decide⟩
  · have hr' : r ∈ combineRanked auto scores monthKey := mem_sortLe.1 hr
    obtain ⟨r0, hr0, heq⟩ := List.mem_map.1 hr'
    have htot : r.total_score = r0.total_score := by rw [← heq]
    have hrank : r.rank =
        rankMin ((combinePre auto scores monthKey).map RankedRow.total_score)
          r0.total_score := by rw [← heq]
    have hmap : (combineRanked auto scores monthKey).map RankedRow.total_score =
        (combinePre auto scores monthKey).map RankedRow.total_score := by
      unfold combineRanked
      rw [List.map_map]
      exact List.map_congr_left (fun x _ => rfl)
    have hlen : (((combineScores auto scores monthKey).map RankedRow.total_score).filter
        (fun u => decide (r.total_score < u))).length =
        (((combinePre auto scores monthKey).map RankedRow.total_score).filter
        (fun u => decide (r.total_score < u))).length := by
      have h2 := (hperm.map RankedRow.total_score).filter
        (fun u => decide (r.total_score < u))
      rw [h2.length_eq, hmap]
    rw [hlen, hrank, htot]
    rfl
  · have hpw := @pairwise_sortLe RankedRow
      (fun a b : RankedRow => decide (a.rank ≤ b.rank))
      (fun a b => by
        rcases Nat.le_total a.rank b.rank with h | h
        · exact Or.inl (by simpa using h)
        · exact Or.inr (by simpa using h))
      (fun a b c hab hbc => by
        simp only [decide_eq_true_eq] at *
        omega)
      (combineRanked auto scores monthKey)
    exact hpw.imp (fun h => by simpa using h)

/-- C4 witness: the leader row of the [30, 25, 25, 10] table has rank 1
and the whole output is rank-sorted with ranks [1, 2, 2, 4]. -/
theorem c4_rank_min_sorted_witness :
    c4Row.rank = 1 + (((combineScores c4Auto [] c4Key).map RankedRow.total_score).filter
      (fun u => decide (c4Row.total_score < u))).length ∧
    List.Pairwise (fun a b : RankedRow => a.rank ≤ b.rank)
      (combineScores c4Auto [] c4Key) ∧
    (combineScores c4Auto [] c4Key).map RankedRow.rank = [1, 2, 2, 4] :=
  c4_rank_min_sorted c4Auto [] c4Key c4Row (by decide)

/-- C2 counterexample: with 2 completion interviews for "amina" but 3
distinct quality issue keys, the aggregator computes
`pct_no_quality_flags = -50`: the value is NOT floored at 0, refuting
"never negative". -/
theorem c2_pct_negative_counterexample :
    fetchAllMetricsCore c2CompletionTable c2QualityTable =
      some [⟨wAmina, 2, some 100, some 3, some (-50), some 0, some 100⟩] ∧
    ((-50 : ℤ) < 0) := by
  exact ⟨by decide, by decide⟩

/-- C2 (amended): each quality percentage is derived from the RA's own
`total_interviews` as denominator; the value never exceeds 100 and is
non-negative whenever the issue count does not exceed the RA's
`total_interviews`, but the code applies no floor at 0, so it goes
negative when the distinct-issue-key count exceeds `total_interviews`. -/
theorem c2_pct_own_denominator_amended (c q : Table) (out : List MetricsRow)
    (r : MetricsRow) (k j : ℕ)
    (h : fetchAllMetricsCore c q = some out) (hr : r ∈ out)
    (hk : r.interviews_with_issues = some k)
    (hj : r.interviews_with_imbalance = some j) :
    r.pct_no_quality_flags = pctRound ((r.total_interviews : ℤ) - k) r.total_interviews ∧
    r.pct_lt5pct_imbalance = pctRound ((r.total_interviews : ℤ) - j) r.total_interviews ∧
    (0 < r.total_interviews →
      roundHalfEvenInt (100 * ((r.total_interviews : ℤ) - k)) r.total_interviews ≤ 100 ∧
      (k ≤ r.total_interviews →
        0 ≤ roundHalfEvenInt (100 * ((r.total_interviews : ℤ) - k)) r.total_interviews) ∧
      roundHalfEvenInt (100 * ((r.total_interviews : ℤ) - j)) r.total_interviews ≤ 100 ∧
      (j ≤ r.total_interviews →
        0 ≤ roundHalfEvenInt (100 * ((r.total_interviews : ℤ) - j)) r.total_interviews)) := by
  obtain ⟨agg, hagg, rfl⟩ := fetchAllMetricsCore_inv h
  rcases qualityMerge_cases hr with ⟨a, ha, rfl⟩ | ⟨raq, hhq, hemp, hc1, hc2, a, ha, rfl⟩
  · exact absurd hk (by simp [defaultQualityRow])
  · simp only [mergeQualityRow, Option.some.injEq] at hk hj
    simp only [mergeQualityRow]
    subst hk
    subst hj
    refine ⟨rfl, rfl, ?_⟩
    intro hpos
    have hd : (0 : ℤ) < (a.total_interviews : ℤ) := by exact_mod_cast hpos
    have hknn : (0 : ℤ) ≤ (qualityIssueCount (normalizeTable q) raq hhq a.ra_name : ℤ) :=
      Int.natCast_nonneg _
    have hjnn : (0 : ℤ) ≤
        (qualityImbalanceCount (normalizeTable q) raq hhq a.ra_name : ℤ) :=
      Int.natCast_nonneg _
    refine ⟨?_, ?_, ?_, ?_⟩
    · exact roundHalfEvenInt_le hd (by nlinarith)
    · intro hk2
      have hle : (qualityIssueCount (normalizeTable q) raq hhq a.ra_name : ℤ) ≤
          (a.total_interviews : ℤ) := by exact_mod_cast hk2
      exact le_roundHalfEvenInt hd (by nlinarith)
    · exact roundHalfEvenInt_le hd (by nlinarith)
    · intro hj2
      have hle : (qualityImbalanceCount (normalizeTable q) raq hhq a.ra_name : ℤ) ≤
          (a.total_interviews : ℤ) := by exact_mod_cast hj2
      exact le_roundHalfEvenInt hd (by nlinarith)

/-- C2 amended witness: for the concrete tables of the counterexample,
with issue count 3 and imbalance count 0. -/
theorem c2_pct_own_denominator_amended_witness :
    c2Row.pct_no_quality_flags =
      pctRound ((c2Row.total_interviews : ℤ) - 3) c2Row.total_interviews ∧
    c2Row.pct_lt5pct_imbalance =
      pctRound ((c2Row.total_interviews : ℤ) - 0) c2Row.total_interviews ∧
    (0 < c2Row.total_interviews →
      roundHalfEvenInt (100 * ((c2Row.total_interviews : ℤ) - 3)) c2Row.total_interviews
        ≤ 100 ∧
      (3 ≤ c2Row.total_interviews →
        0 ≤ roundHalfEvenInt (100 * ((c2Row.total_interviews : ℤ) - 3))
          c2Row.total_interviews) ∧
      roundHalfEvenInt (100 * ((c2Row.total_interviews : ℤ) - 0)) c2Row.total_interviews
        ≤ 100 ∧
      (0 ≤ c2Row.total_interviews →
        0 ≤ roundHalfEvenInt (100 * ((c2Row.total_interviews : ℤ) - 0))
          c2Row.total_interviews)) :=
  c2_pct_own_denominator_amended c2CompletionTable c2QualityTable [c2Row] c2Row 3 0
    (by decide) (by decide) (by decide) (by decide)

/-- C3 counterexample: when all of "amina"'s household cells are NULL,
`total_interviews` is 0 and every derived percentage is the undefined
marker (`none`, modelling the `astype(int)` exception on the NaN/inf
quotient) — not 0 as the claim states. -/
theorem c3_division_by_zero_counterexample :
    fetchAllMetricsCore c3CompletionTable c3QualityTable =
      some [⟨wAmina, 0, none, some 1, none, some 0, none⟩] ∧
    (none : Option ℤ) ≠ some 0 := by
  exact ⟨by decide, by decide⟩

/-- C3 (amended): an RA can end up with `total_interviews = 0` (all its
household-identifier cells missing), and then the aggregation's
percentage computations divide by zero: `pct_complete` and — when the
quality feed is usable — both quality percentages are undefined (`none`)
rather than 0. -/
theorem c3_total_zero_undefined_amended (c q : Table) (out : List MetricsRow)
    (r : MetricsRow) (k : ℕ)
    (h : fetchAllMetricsCore c q = some out) (hr : r ∈ out)
    (hk : r.interviews_with_issues = some k)
    (h0 : r.total_interviews = 0) :
    r.pct_complete = none ∧ r.pct_no_quality_flags = none ∧
    r.pct_lt5pct_imbalance = none := by
  obtain ⟨agg, hagg, rfl⟩ := fetchAllMetricsCore_inv h
  rcases qualityMerge_cases hr with ⟨a, ha, rfl⟩ | ⟨raq, hhq, hemp, hc1, hc2, a, ha, rfl⟩
  · exact absurd hk (by simp [defaultQualityRow])
  · simp only [mergeQualityRow] at h0 ⊢
    obtain ⟨raCol, ra, hkey, rfl⟩ := completionAggregate_inv hagg ha
    exact ⟨completionRowFor_total_zero hkey h0, by simp [pctRound, h0],
      by simp [pctRound, h0]⟩

/-- C3 amended witness: the concrete single-RA tables with a NULL
household cell. -/
theorem c3_total_zero_undefined_amended_witness :
    c3Row.pct_complete = none ∧ c3Row.pct_no_quality_flags = none ∧
    c3Row.pct_lt5pct_imbalance = none :=
  c3_total_zero_undefined_amended c3CompletionTable c3QualityTable [c3Row] c3Row 1
    (by decide) (by decide) (by decide) (by decide)

/-- C9: whenever the quality feed is empty, or its RA column or its
household column cannot be located after normalization, every RA row in
a successful aggregation gets `pct_no_quality_flags = 100` and
`pct_lt5pct_imbalance = 100` instead of a failure. -/
theorem c9_quality_defaults (c q : Table) (out : List MetricsRow) (r : MetricsRow)
    (hq : q.rows.isEmpty = true ∨ findRaColQuality (normalizeTable q).cols = none ∨
      findHhCol (normalizeTable q).cols = none)
    (h : fetchAllMetricsCore c q = some out) (hr : r ∈ out) :
    r.pct_no_quality_flags = some 100 ∧ r.pct_lt5pct_imbalance = some 100 := by
  obtain ⟨agg, hagg, rfl⟩ := fetchAllMetricsCore_inv h
  rcases qualityMerge_cases hr with ⟨a, ha, rfl⟩ | ⟨raq, hhq, hemp, hc1, hc2, a, ha, rfl⟩
  · exact ⟨rfl, rfl⟩
  · rcases hq with hq | hq | hq
    · rw [hq] at hemp
      exact absurd hemp (by simp)
    · rw [hq] at hc1
      exact absurd hc1 (by simp)
    · rw [hq] at hc2
      exact absurd hc2 (by simp)

/-- C9 witness: a one-RA completion feed with an empty quality feed
aggregates to a single row whose two quality percentages are 100. -/
theorem c9_quality_defaults_witness :
    c9Row.pct_no_quality_flags = some 100 ∧ c9Row.pct_lt5pct_imbalance = some 100 :=
  c9_quality_defaults c9CompletionTable c9QualityEmpty [c9Row] c9Row
    (Or.inl (by decide)) (by decide) (by decide)
